import Mathlib

/-!
# Verification of the huffman-rs compression engine

Shallow embedding of the repository's source files:

* `src/freqs.rs` — `learn_char_frequencies` (rayon fold/reduce over lines;
  the merge is commutative/associative addition over counts, so the
  sequential left fold is its denotation; the resulting `HashMap` is
  modelled as an association list in first-insertion order);
* `src/huffman.rs` — `Tree`, `impl Ord for Tree` (compares only `freq`),
  `Tree::to_encoder` (explicit-stack traversal), `build_huffman_tree`
  (a `BinaryHeap<Reverse<Tree>>` driven merge loop);
* `src/compression.rs` — `compress_as_chars`, `decompress` (the bit-by-bit
  candidate/decoder loop), `Tree::encode`.

Modelling conventions:

* Rust `HashMap<K, V>` becomes `List (K × V)` together with `alookup`
  (first match); `HashMap::insert` is modelled by consing the new entry in
  front, which has the same lookup semantics as overwriting.
* A `HashMap`'s iteration order is unspecified at the Rust level (it is
  randomly seeded), so every function that iterates a map takes the entry
  list — i.e. one possible iteration order — as its input.
* `BinaryHeap<Reverse<Tree>>` is modelled as a list in insertion order
  whose pop removes the earliest-inserted element of minimal frequency
  (for the two-element heaps used in the concrete counterexamples this is
  exactly what Rust's binary heap does; the positive theorems below do not
  depend on which minimal element is popped).
* A Rust `panic!`/`unwrap` on `None` is modelled by an `Option`-valued
  function returning `none`: the source functions have no error channel.
* `rmp_serde` (the MessagePack container) is external library code; the
  compressed artifact is modelled as the `CompressedData` pair
  `(encoder, data)` that the source serializes and deserializes.
-/

namespace HuffmanRs

/-- Association-list lookup, first match wins; models `HashMap::get`. -/
def alookup {K V : Type} [DecidableEq K] (k : K) : List (K × V) → Option V
  | [] => none
  | (a, v) :: rest => if a = k then some v else alookup k rest

/-- `initSeg p q` means the bit list `p` is an initial segment of `q`. -/
def initSeg (p q : List Bool) : Prop := ∃ r, p ++ r = q

/-- Boolean test for `initSeg`. -/
def isInitB : List Bool → List Bool → Bool
  | [], _ => true
  | _ :: _, [] => false
  | a :: p, b :: q => (a == b) && isInitB p q

/-- The `Tree<T>` enum of `src/huffman.rs`: `Leaf { freq, token }` or
`Node { freq, left, right }`.  `i64` frequencies become `Int`. -/
inductive Tree (T : Type) where
  | Leaf (freq : Int) (token : T)
  | Node (freq : Int) (left : Tree T) (right : Tree T)
deriving DecidableEq, Repr

namespace Tree

variable {T : Type}

/-- `Tree::freq`. -/
def freq : Tree T → Int
  | .Leaf f _ => f
  | .Node f _ _ => f

/-- Node count, used as a termination measure for the traversal stack. -/
def size : Tree T → Nat
  | .Leaf _ _ => 1
  | .Node _ l r => l.size + r.size + 1

/-- The `impl Ord for Tree` of `src/huffman.rs` lines 114-118: it compares
only the frequencies, with no secondary key. -/
def cmpFreq (a b : Tree T) : Ordering := compare a.freq b.freq

/-- Whether a token occurs at some leaf of the tree. -/
def hasToken [DecidableEq T] : Tree T → T → Bool
  | .Leaf _ x, a => decide (x = a)
  | .Node _ l r, a => l.hasToken a || r.hasToken a

/-- Whether the root is an internal node. -/
def isNodeB : Tree T → Bool
  | .Leaf _ _ => false
  | .Node _ _ _ => true

/-- Every internal node's frequency equals the sum of its children's. -/
def freqOkB : Tree T → Bool
  | .Leaf _ _ => true
  | .Node f l r => decide (f = l.freq + r.freq) && l.freqOkB && r.freqOkB

/-- `leafAt t p a`: following path `p` (`false` = left, `true` = right)
from `t` reaches a leaf whose token is `a`. -/
def leafAt : Tree T → List Bool → T → Prop
  | .Leaf _ x, [], a => a = x
  | .Leaf _ _, _ :: _, _ => False
  | .Node _ l _, false :: p, a => leafAt l p a
  | .Node _ _ r, true :: p, a => leafAt r p a
  | .Node _ _ _, [], _ => False

end Tree

/-- The explicit-stack loop of `Tree::to_encoder` (`src/huffman.rs` lines
78-101): pop an entry; at a leaf, insert `(token, path)` into the encoder
map (modelled by consing in front); at a node, push the left child with
`path ++ [false]` and then the right child with `path ++ [true]`, so the
right child is on top of the stack, as in the source. -/
def encLoop {T : Type} : List (Tree T × List Bool) → List (T × List Bool) →
    List (T × List Bool)
  | [], acc => acc
  | (Tree.Leaf _ x, path) :: stack, acc => encLoop stack ((x, path) :: acc)
  | (Tree.Node _ l r, path) :: stack, acc =>
      encLoop ((r, path ++ [true]) :: (l, path ++ [false]) :: stack) acc
termination_by stack => (stack.map (fun e => e.1.size)).sum
decreasing_by
  all_goals simp only [List.map_cons, List.sum_cons, Tree.size]
  all_goals omega

/-- `Tree::to_encoder`: run the stack loop from `[(self, BitVec::new())]`. -/
def Tree.to_encoder {T : Type} (t : Tree T) : List (T × List Bool) :=
  encLoop [(t, [])] []

/-- Pop from the modelled binary heap: remove the earliest-inserted element
of minimal frequency (ties keep the earlier element). -/
def popMin {T : Type} : List (Tree T) → Option (Tree T × List (Tree T))
  | [] => none
  | t :: rest =>
    match popMin rest with
    | none => some (t, [])
    | some (m, rest2) => if m.freq < t.freq then some (m, t :: rest2) else some (t, rest)

theorem popMin_none_iff {T : Type} (l : List (Tree T)) : popMin l = none ↔ l = [] := by
  cases l with
  | nil => simp [popMin]
  | cons t rest =>
      simp only [popMin]
      constructor
      · intro h
        exfalso
        revert h
        cases popMin rest with
        | none => simp
        | some p =>
            obtain ⟨m, r2⟩ := p
            by_cases hlt : m.freq < t.freq <;> simp [hlt]
      · intro h
        exact absurd h (by simp)

theorem popMin_length {T : Type} :
    ∀ (l : List (Tree T)) (m : Tree T) (l2 : List (Tree T)),
      popMin l = some (m, l2) → l2.length + 1 = l.length := by
  intro l
  induction l with
  | nil => intro m l2 h; simp [popMin] at h
  | cons t rest ih =>
      intro m l2 h
      cases hr : popMin rest with
      | none =>
          have hrest : rest = [] := (popMin_none_iff rest).1 hr
          subst hrest
          simp [popMin] at h
          obtain ⟨h1, h2⟩ := h
          subst h2
          rfl
      | some p =>
          obtain ⟨m2, rest2⟩ := p
          simp only [popMin, hr] at h
          by_cases hlt : m2.freq < t.freq
          · rw [if_pos hlt] at h
            have hlen := ih m2 rest2 hr
            cases h
            simp only [List.length_cons]
            omega
          · rw [if_neg hlt] at h
            cases h
            rfl

/-- The `while heap.len() > 1` merge loop of `build_huffman_tree`
(`src/huffman.rs` lines 133-145): pop the two smallest nodes, merge them
into `Node { freq: n1.freq + n2.freq, left: n1, right: n2 }`, push the
merged node, and finally pop the root.  `none` models the
`heap.pop().unwrap()` panic on an empty heap. -/
def buildLoop {T : Type} (l : List (Tree T)) : Option (Tree T) :=
  match h1 : popMin l with
  | none => none
  | some (t1, l1) =>
    match h2 : popMin l1 with
    | none => some t1
    | some (t2, l2) =>
        buildLoop (l2 ++ [Tree.Node (t1.freq + t2.freq) t1 t2])
termination_by l.length
decreasing_by
  have e1 := popMin_length l t1 l1 h1
  have e2 := popMin_length l1 t2 l2 h2
  simp
  omega

/-- `build_huffman_tree` (`src/huffman.rs` lines 126-146): push one leaf
per table entry in iteration order, then run the merge loop.  The argument
list is one possible iteration order of the `HashMap`. -/
def build_huffman_tree {T : Type} (freqs : List (T × Int)) : Option (Tree T) :=
  buildLoop (freqs.map (fun p => Tree.Leaf p.2 p.1))

/-- One `*freqs.entry(ch).or_insert(0) += 1` step of
`learn_char_frequencies`, on the association-list model of the map. -/
def bump : List (Char × Int) → Char → List (Char × Int)
  | [], ch => [(ch, 1)]
  | (c, n) :: rest, ch =>
      if c = ch then (c, n + 1) :: rest else (c, n) :: bump rest ch

/-- `learn_char_frequencies` (`src/freqs.rs` lines 4-25): tally every
character of every line.  The rayon fold/reduce merges local tables with
commutative, associative addition, so the sequential left fold is its
denotation. -/
def learn_char_frequencies (lines : List (List Char)) : List (Char × Int) :=
  lines.foldl (fun fs line => line.foldl bump fs) []

/-- Sum of the counts of a frequency table. -/
def sumCounts (l : List (Char × Int)) : Int := (l.map (fun p => p.2)).sum

/-- Per-line encoding step of `compress_as_chars` (`src/compression.rs`
lines 30-40): look up each character's codeword and concatenate them
(`BitVec::extend`).  `none` models the `encoder.get(&ch).unwrap()` panic. -/
def encodeLine {T : Type} [DecidableEq T] (enc : List (T × List Bool)) :
    List T → Option (List Bool)
  | [] => some []
  | ch :: rest =>
    match alookup ch enc, encodeLine enc rest with
    | some c, some bs => some (c ++ bs)
    | _, _ => none

/-- Encode every line with `encodeLine`; `none` models a panic on any line
(the `data` collection loop of `compress_as_chars`). -/
def encodeAllLines {T : Type} [DecidableEq T] (enc : List (T × List Bool)) :
    List (List T) → Option (List (List Bool))
  | [] => some []
  | line :: rest =>
    match encodeLine enc line, encodeAllLines enc rest with
    | some bs, some ds => some (bs :: ds)
    | _, _ => none

/-- `compress_as_chars` (`src/compression.rs` lines 25-44): learn the
frequencies, build the tree, derive the encoder, encode every line, and
package the `CompressedData { encoder, data }` pair (the MessagePack
serialization of that pair is external library code). -/
def compress_as_chars (lines : List (List Char)) :
    Option (List (Char × List Bool) × List (List Bool)) :=
  match build_huffman_tree (learn_char_frequencies lines) with
  | none => none
  | some tree =>
    match encodeAllLines tree.to_encoder lines with
    | none => none
    | some data => some (tree.to_encoder, data)

/-- The decoder-building loop of `decompress` (`src/compression.rs` lines
79-82, also `Tree::to_decoder`): invert the encoder entry by entry. -/
def to_decoder {T : Type} (enc : List (T × List Bool)) : List (List Bool × T) :=
  enc.map (fun p => (p.2, p.1))

/-- The per-line `while pos < line.len()` loop of `decompress`
(`src/compression.rs` lines 87-104): push the next bit onto the candidate;
on a decoder match emit the token and reset the candidate; at the end of
the bits return the tokens collected so far (a leftover candidate is
discarded). -/
def decodeLoop {T : Type} (d : List (List Bool × T)) :
    List Bool → List Bool → List T → List T
  | [], _, toks => toks
  | b :: rest, cand, toks =>
    match alookup (cand ++ [b]) d with
    | some tok => decodeLoop d rest [] (toks ++ [tok])
    | none => decodeLoop d rest (cand ++ [b]) toks

/-- Decode one encoded line, starting from an empty candidate and no
tokens, as `decompress` does. -/
def decode_line {T : Type} (d : List (List Bool × T)) (line : List Bool) : List T :=
  decodeLoop d line [] []

/-- `decompress` (`src/compression.rs` lines 67-110) after the MessagePack
layer: build the decoder from the deserialized encoder, decode every
encoded line, and reassemble each line with `tokens_to_line`. -/
def decompress {T L : Type} (tokens_to_line : List T → L)
    (cd : List (T × List Bool) × List (List Bool)) : List L :=
  cd.2.map (fun line => tokens_to_line (decode_line (to_decoder cd.1) line))

/-- `decompress` with the character-concatenating detokenizer
`|x: Vec<char>| x.into_iter().collect()`. -/
def decompressChars (cd : List (Char × List Bool) × List (List Bool)) :
    List (List Char) :=
  decompress (fun toks => toks) cd

/-- The lookup loop of `Tree::encode`: one codeword per item, `none`
models the `encoder.get(item).unwrap()` panic on a missing symbol. -/
def encodeTokens {T : Type} [DecidableEq T] (enc : List (T × List Bool)) :
    List T → Option (List (List Bool))
  | [] => some []
  | x :: rest =>
    match alookup x enc, encodeTokens enc rest with
    | some c, some cs => some (c :: cs)
    | _, _ => none

/-- `Tree::encode` (`src/compression.rs` lines 114-122): look up each
item's codeword in the encoder derived from the tree. -/
def Tree.encode {T : Type} [DecidableEq T] (t : Tree T) (data : List T) :
    Option (List (List Bool)) :=
  encodeTokens t.to_encoder data

/-! ## Lemmas about association-list lookup -/

theorem alookup_mem {K V : Type} [DecidableEq K] {k : K} {v : V} :
    ∀ {l : List (K × V)}, alookup k l = some v → (k, v) ∈ l := by
  intro l
  induction l with
  | nil => intro h; simp [alookup] at h
  | cons e rest ih =>
      obtain ⟨a, w⟩ := e
      intro h
      simp only [alookup] at h
      by_cases ha : a = k
      · subst ha
        rw [if_pos rfl] at h
        cases h
        exact List.mem_cons_self _ _
      · rw [if_neg ha] at h
        exact List.mem_cons_of_mem _ (ih h)

theorem alookup_isSome_of_mem {K V : Type} [DecidableEq K] {k : K} {v : V} :
    ∀ {l : List (K × V)}, (k, v) ∈ l → (alookup k l).isSome := by
  intro l
  induction l with
  | nil => intro h; simp at h
  | cons e rest ih =>
      intro h
      obtain ⟨a, w⟩ := e
      simp only [alookup]
      by_cases ha : a = k
      · rw [if_pos ha]; rfl
      · rw [if_neg ha]
        rcases List.mem_cons.mp h with heq | hmem
        · cases heq
          exact absurd rfl ha
        · exact ih hmem

/-! ## Lemmas about initial segments of bit lists -/

theorem initSeg_nil (q : List Bool) : initSeg [] q := ⟨q, rfl⟩

theorem initSeg_cons_iff {a b : Bool} {p q : List Bool} :
    initSeg (a :: p) (b :: q) ↔ a = b ∧ initSeg p q := by
  constructor
  · rintro ⟨r, hr⟩
    injection hr with h1 h2
    exact ⟨h1, r, h2⟩
  · rintro ⟨rfl, r, hr⟩
    exact ⟨r, by simp [hr]⟩

theorem not_initSeg_cons_nil (a : Bool) (p : List Bool) : ¬ initSeg (a :: p) [] := by
  rintro ⟨r, hr⟩
  simp at hr

theorem initSeg_length {p q : List Bool} (h : initSeg p q) : p.length ≤ q.length := by
  obtain ⟨r, rfl⟩ := h
  simp

theorem isInitB_iff : ∀ p q : List Bool, isInitB p q = true ↔ initSeg p q := by
  intro p
  induction p with
  | nil => intro q; simp [isInitB, initSeg_nil]
  | cons a p ih =>
      intro q
      cases q with
      | nil =>
          simp only [isInitB, Bool.false_eq_true, false_iff]
          exact not_initSeg_cons_nil a p
      | cons b q =>
          simp [isInitB, Bool.and_eq_true, beq_iff_eq, ih, initSeg_cons_iff]

instance (p q : List Bool) : Decidable (initSeg p q) :=
  decidable_of_iff _ (isInitB_iff p q)

/-! ## Lemmas about leaf paths -/

theorem leafAt_token_eq {T : Type} {t : Tree T} :
    ∀ {p : List Bool} {a b : T}, t.leafAt p a → t.leafAt p b → a = b := by
  induction t with
  | Leaf f x =>
      intro p a b h1 h2
      cases p with
      | nil =>
          simp only [Tree.leafAt] at h1 h2
          rw [h1, h2]
      | cons c p2 => simp [Tree.leafAt] at h1
  | Node f l r ihl ihr =>
      intro p a b h1 h2
      cases p with
      | nil => simp [Tree.leafAt] at h1
      | cons bit p2 =>
          cases bit with
          | false =>
              simp only [Tree.leafAt] at h1 h2
              exact ihl h1 h2
          | true =>
              simp only [Tree.leafAt] at h1 h2
              exact ihr h1 h2

theorem leafAt_initSeg {T : Type} {t : Tree T} :
    ∀ {p q : List Bool} {a b : T},
      t.leafAt p a → t.leafAt q b → initSeg p q → p = q := by
  induction t with
  | Leaf f x =>
      intro p q a b h1 h2 hseg
      cases p with
      | nil =>
          cases q with
          | nil => rfl
          | cons c q2 => simp [Tree.leafAt] at h2
      | cons c p2 => simp [Tree.leafAt] at h1
  | Node f l r ihl ihr =>
      intro p q a b h1 h2 hseg
      cases p with
      | nil => simp [Tree.leafAt] at h1
      | cons bp p2 =>
          cases q with
          | nil => exact absurd hseg (not_initSeg_cons_nil _ _)
          | cons bq q2 =>
              obtain ⟨hb, hseg2⟩ := initSeg_cons_iff.mp hseg
              subst hb
              cases bp with
              | false =>
                  simp only [Tree.leafAt] at h1 h2
                  rw [ihl h1 h2 hseg2]
              | true =>
                  simp only [Tree.leafAt] at h1 h2
                  rw [ihr h1 h2 hseg2]

theorem leafAt_node_ne_nil {T : Type} {f : Int} {l r : Tree T} {p : List Bool} {a : T}
    (h : (Tree.Node f l r).leafAt p a) : p ≠ [] := by
  intro hnil
  subst hnil
  simp [Tree.leafAt] at h

theorem hasToken_iff_leafAt {T : Type} [DecidableEq T] {t : Tree T} {a : T} :
    t.hasToken a = true ↔ ∃ p, t.leafAt p a := by
  induction t with
  | Leaf f x =>
      simp only [Tree.hasToken, decide_eq_true_eq]
      constructor
      · intro h
        exact ⟨[], h.symm⟩
      · rintro ⟨p, hp⟩
        cases p with
        | nil => exact (hp : a = x).symm
        | cons c p2 => exact absurd hp (by simp [Tree.leafAt])
  | Node f l r ihl ihr =>
      simp only [Tree.hasToken, Bool.or_eq_true, ihl, ihr]
      constructor
      · rintro (⟨p, hp⟩ | ⟨p, hp⟩)
        · exact ⟨false :: p, hp⟩
        · exact ⟨true :: p, hp⟩
      · rintro ⟨p, hp⟩
        cases p with
        | nil => exact absurd hp (by simp [Tree.leafAt])
        | cons b p2 =>
            cases b with
            | false => exact Or.inl ⟨p2, hp⟩
            | true => exact Or.inr ⟨p2, hp⟩

/-! ## Characterization of the encoder traversal -/

theorem encLoop_sound {T : Type} :
    ∀ (stack : List (Tree T × List Bool)) (acc : List (T × List Bool)) (a : T)
      (p : List Bool),
      (a, p) ∈ encLoop stack acc →
        (a, p) ∈ acc ∨ ∃ e ∈ stack, ∃ r, (e.1).leafAt r a ∧ p = e.2 ++ r := by
  intro stack acc
  induction stack, acc using encLoop.induct with
  | case1 acc =>
      intro a p h
      exact Or.inl (by simpa [encLoop] using h)
  | case2 f x path stack acc ih =>
      intro a p h
      rw [encLoop] at h
      rcases ih a p h with hmem | ⟨e, he, rr, hleaf, hp⟩
      · rcases List.mem_cons.mp hmem with heq | hacc
        · have h1 : a = x := congrArg Prod.fst heq
          have h2 : p = path := congrArg Prod.snd heq
          refine Or.inr ⟨(Tree.Leaf f x, path), List.mem_cons_self _ _, [], ?_, ?_⟩
          · simp only [Tree.leafAt]
            exact h1
          · simp [h2]
        · exact Or.inl hacc
      · exact Or.inr ⟨e, List.mem_cons_of_mem _ he, rr, hleaf, hp⟩
  | case3 f l r path stack acc ih =>
      intro a p h
      rw [encLoop] at h
      rcases ih a p h with hmem | ⟨e, he, rr, hleaf, hp⟩
      · exact Or.inl hmem
      · rcases List.mem_cons.mp he with he1 | he2
        · subst he1
          refine Or.inr ⟨(Tree.Node f l r, path), List.mem_cons_self _ _, true :: rr, ?_, ?_⟩
          · simp only [Tree.leafAt]
            exact hleaf
          · rw [hp]
            simp
        · rcases List.mem_cons.mp he2 with he3 | he4
          · subst he3
            refine Or.inr ⟨(Tree.Node f l r, path), List.mem_cons_self _ _, false :: rr, ?_, ?_⟩
            · simp only [Tree.leafAt]
              exact hleaf
            · rw [hp]
              simp
          · exact Or.inr ⟨e, List.mem_cons_of_mem _ he4, rr, hleaf, hp⟩

theorem encLoop_complete {T : Type} :
    ∀ (stack : List (Tree T × List Bool)) (acc : List (T × List Bool)) (a : T)
      (p : List Bool),
      ((a, p) ∈ acc ∨ ∃ e ∈ stack, ∃ r, (e.1).leafAt r a ∧ p = e.2 ++ r) →
        (a, p) ∈ encLoop stack acc := by
  intro stack acc
  induction stack, acc using encLoop.induct with
  | case1 acc =>
      intro a p h
      rcases h with h | ⟨e, he, _, _, _⟩
      · simpa [encLoop] using h
      · exact absurd he (List.not_mem_nil e)
  | case2 f x path stack acc ih =>
      intro a p h
      rw [encLoop]
      apply ih
      rcases h with hacc | ⟨e, he, rr, hleaf, hp⟩
      · exact Or.inl (List.mem_cons_of_mem _ hacc)
      · rcases List.mem_cons.mp he with he1 | he2
        · subst he1
          cases rr with
          | nil =>
              have hax : a = x := by simpa [Tree.leafAt] using hleaf
              have hpp : p = path := by simpa using hp
              refine Or.inl ?_
              rw [hax, hpp]
              exact List.mem_cons_self _ _
          | cons c r2 =>
              exact absurd hleaf (by simp [Tree.leafAt])
        · exact Or.inr ⟨e, he2, rr, hleaf, hp⟩
  | case3 f l r path stack acc ih =>
      intro a p h
      rw [encLoop]
      apply ih
      rcases h with hacc | ⟨e, he, rr, hleaf, hp⟩
      · exact Or.inl hacc
      · rcases List.mem_cons.mp he with he1 | he2
        · subst he1
          cases rr with
          | nil => exact absurd hleaf (by simp [Tree.leafAt])
          | cons b r2 =>
              cases b with
              | false =>
                  refine Or.inr ⟨(l, path ++ [false]), ?_, r2, ?_, ?_⟩
                  · exact List.mem_cons_of_mem _ (List.mem_cons_self _ _)
                  · simpa [Tree.leafAt] using hleaf
                  · rw [hp]
                    simp
              | true =>
                  refine Or.inr ⟨(r, path ++ [true]), List.mem_cons_self _ _, r2, ?_, ?_⟩
                  · simpa [Tree.leafAt] using hleaf
                  · rw [hp]
                    simp
        · exact Or.inr
            ⟨e, List.mem_cons_of_mem _ (List.mem_cons_of_mem _ he2), rr, hleaf, hp⟩

theorem mem_encLoop {T : Type} (stack : List (Tree T × List Bool))
    (acc : List (T × List Bool)) (a : T) (p : List Bool) :
    (a, p) ∈ encLoop stack acc ↔
      ((a, p) ∈ acc ∨ ∃ e ∈ stack, ∃ r, (e.1).leafAt r a ∧ p = e.2 ++ r) :=
  ⟨encLoop_sound stack acc a p, encLoop_complete stack acc a p⟩

theorem mem_to_encoder {T : Type} {t : Tree T} {a : T} {p : List Bool} :
    (a, p) ∈ t.to_encoder ↔ t.leafAt p a := by
  rw [Tree.to_encoder, mem_encLoop]
  simp only [List.not_mem_nil, false_or, List.exists_mem_cons_iff, List.not_mem_nil]
  constructor
  · rintro (⟨r, hr, rfl⟩ | h)
    · simpa using hr
    · exact absurd h (by simp)
  · intro h
    exact Or.inl ⟨p, h, by simp⟩

theorem alookup_to_encoder_sound {T : Type} [DecidableEq T] {t : Tree T} {a : T}
    {p : List Bool} (h : alookup a t.to_encoder = some p) : t.leafAt p a :=
  mem_to_encoder.mp (alookup_mem h)

theorem alookup_to_encoder_isSome {T : Type} [DecidableEq T] {t : Tree T} {a : T}
    {p : List Bool} (h : t.leafAt p a) : (alookup a t.to_encoder).isSome :=
  alookup_isSome_of_mem (mem_to_encoder.mpr h)

/-! ## The decoder map inverts the encoder -/

theorem mem_to_decoder {T : Type} {enc : List (T × List Bool)} {p : List Bool} {a : T} :
    (p, a) ∈ to_decoder enc ↔ (a, p) ∈ enc := by
  simp only [to_decoder, List.mem_map, Prod.mk.injEq]
  constructor
  · rintro ⟨e, he, h2, h1⟩
    obtain ⟨b, q⟩ := e
    simp only at h1 h2
    subst h1
    subst h2
    exact he
  · intro h
    exact ⟨(a, p), h, rfl, rfl⟩

theorem alookup_decoder_iff {T : Type} [DecidableEq T] {t : Tree T} (p : List Bool)
    (b : T) : alookup p (to_decoder t.to_encoder) = some b ↔ t.leafAt p b := by
  constructor
  · intro h
    exact mem_to_encoder.mp (mem_to_decoder.mp (alookup_mem h))
  · intro h
    have hm : (p, b) ∈ to_decoder t.to_encoder :=
      mem_to_decoder.mpr (mem_to_encoder.mpr h)
    obtain ⟨c, hc⟩ := Option.isSome_iff_exists.mp (alookup_isSome_of_mem hm)
    have hc2 : t.leafAt p c := mem_to_encoder.mp (mem_to_decoder.mp (alookup_mem hc))
    rw [leafAt_token_eq hc2 h] at hc
    exact hc

/-! ## Lemmas about the heap-driven merge loop -/

theorem popMin_perm {T : Type} :
    ∀ (l : List (Tree T)) (m : Tree T) (l2 : List (Tree T)),
      popMin l = some (m, l2) → l.Perm (m :: l2) := by
  intro l
  induction l with
  | nil => intro m l2 h; simp [popMin] at h
  | cons t rest ih =>
      intro m l2 h
      cases hr : popMin rest with
      | none =>
          have hrest : rest = [] := (popMin_none_iff rest).1 hr
          subst hrest
          simp [popMin] at h
          obtain ⟨h1, h2⟩ := h
          subst h1
          subst h2
          exact List.Perm.refl _
      | some p =>
          obtain ⟨m2, rest2⟩ := p
          simp only [popMin, hr] at h
          by_cases hlt : m2.freq < t.freq
          · rw [if_pos hlt] at h
            have hperm := ih m2 rest2 hr
            cases h
            exact (hperm.cons t).trans (List.Perm.swap _ _ _)
          · rw [if_neg hlt] at h
            cases h
            exact List.Perm.refl _

theorem buildLoop_eq_none {T : Type} {l : List (Tree T)} (h : popMin l = none) :
    buildLoop l = none := by
  rw [buildLoop.eq_def]
  split
  · rfl
  · next t1 l1 heq =>
      rw [h] at heq
      exact Option.noConfusion heq

theorem buildLoop_eq_single {T : Type} {l l1 : List (Tree T)} {t1 : Tree T}
    (h1 : popMin l = some (t1, l1)) (h2 : popMin l1 = none) :
    buildLoop l = some t1 := by
  rw [buildLoop.eq_def]
  split
  · next heq =>
      rw [h1] at heq
      exact Option.noConfusion heq
  · next t1x l1x heq =>
      rw [h1] at heq
      injection heq with heq2
      cases heq2
      split
      · rfl
      · next t2 l2 heq3 =>
          rw [h2] at heq3
          exact Option.noConfusion heq3

theorem buildLoop_eq_step {T : Type} {l l1 l2 : List (Tree T)} {t1 t2 : Tree T}
    (h1 : popMin l = some (t1, l1)) (h2 : popMin l1 = some (t2, l2)) :
    buildLoop l = buildLoop (l2 ++ [Tree.Node (t1.freq + t2.freq) t1 t2]) := by
  rw [buildLoop.eq_def]
  split
  · next heq =>
      rw [h1] at heq
      exact Option.noConfusion heq
  · next t1x l1x heq =>
      rw [h1] at heq
      injection heq with heq2
      cases heq2
      split
      · next heq3 =>
          rw [h2] at heq3
          exact Option.noConfusion heq3
      · next t2x l2x heq3 =>
          rw [h2] at heq3
          injection heq3 with heq4
          cases heq4
          rfl

theorem buildLoop_singleton {T : Type} (u : Tree T) : buildLoop [u] = some u :=
  @buildLoop_eq_single T [u] [] u (by simp [popMin]) rfl

theorem buildLoop_isSome {T : Type} :
    ∀ (l : List (Tree T)), l ≠ [] → (buildLoop l).isSome := by
  intro l
  induction l using buildLoop.induct with
  | case1 x h1 =>
      intro hne
      exact absurd ((popMin_none_iff x).1 h1) hne
  | case2 x t1 l1 h1 h2 =>
      intro _
      rw [buildLoop_eq_single h1 h2]
      rfl
  | case3 x t1 l1 h1 t2 l2 h2 ih =>
      intro _
      rw [buildLoop_eq_step h1 h2]
      exact ih (by simp)

theorem buildLoop_freq {T : Type} :
    ∀ (l : List (Tree T)), ∀ (t : Tree T),
      (∀ u ∈ l, u.freqOkB = true) → buildLoop l = some t →
      t.freqOkB = true ∧ t.freq = (l.map Tree.freq).sum := by
  intro l
  induction l using buildLoop.induct with
  | case1 x h1 =>
      intro t hok ht
      rw [buildLoop_eq_none h1] at ht
      exact Option.noConfusion ht
  | case2 x t1 l1 h1 h2 =>
      intro t hok ht
      rw [buildLoop_eq_single h1 h2] at ht
      injection ht with ht2
      have hperm := popMin_perm x t1 l1 h1
      have hl1 : l1 = [] := (popMin_none_iff l1).1 h2
      subst hl1
      rw [← ht2]
      constructor
      · exact hok t1 (hperm.mem_iff.mpr (List.mem_cons_self _ _))
      · rw [(hperm.map Tree.freq).sum_eq]
        simp
  | case3 x t1 l1 h1 t2 l2 h2 ih =>
      intro t hok ht
      rw [buildLoop_eq_step h1 h2] at ht
      have hpx := popMin_perm x t1 l1 h1
      have hpl1 := popMin_perm l1 t2 l2 h2
      have hmem1 : t1 ∈ x := hpx.mem_iff.mpr (List.mem_cons_self _ _)
      have hmeml1 : ∀ u ∈ l1, u ∈ x := fun u hu =>
        hpx.mem_iff.mpr (List.mem_cons_of_mem _ hu)
      have hmem2 : t2 ∈ x := hmeml1 t2 (hpl1.mem_iff.mpr (List.mem_cons_self _ _))
      have hmeml2 : ∀ u ∈ l2, u ∈ x := fun u hu =>
        hmeml1 u (hpl1.mem_iff.mpr (List.mem_cons_of_mem _ hu))
      have hok2 : ∀ u ∈ l2 ++ [Tree.Node (t1.freq + t2.freq) t1 t2], u.freqOkB = true := by
        intro u hu
        rcases List.mem_append.mp hu with hu1 | hu2
        · exact hok u (hmeml2 u hu1)
        · have hu3 : u = Tree.Node (t1.freq + t2.freq) t1 t2 := by simpa using hu2
          subst hu3
          simp [Tree.freqOkB, Tree.freq, hok t1 hmem1, hok t2 hmem2]
      obtain ⟨hokt, hsum⟩ := ih t hok2 ht
      refine ⟨hokt, ?_⟩
      rw [hsum]
      have e1 : (x.map Tree.freq).sum = t1.freq + (l1.map Tree.freq).sum := by
        rw [(hpx.map Tree.freq).sum_eq]
        simp
      have e2 : (l1.map Tree.freq).sum = t2.freq + (l2.map Tree.freq).sum := by
        rw [(hpl1.map Tree.freq).sum_eq]
        simp
      rw [e1, e2]
      simp [List.map_append, List.sum_append, Tree.freq]
      ring

theorem buildLoop_hasToken {T : Type} [DecidableEq T] :
    ∀ (l : List (Tree T)), ∀ (t : Tree T) (a : T),
      buildLoop l = some t →
      (t.hasToken a = true ↔ ∃ u ∈ l, u.hasToken a = true) := by
  intro l
  induction l using buildLoop.induct with
  | case1 x h1 =>
      intro t a ht
      rw [buildLoop_eq_none h1] at ht
      exact Option.noConfusion ht
  | case2 x t1 l1 h1 h2 =>
      intro t a ht
      rw [buildLoop_eq_single h1 h2] at ht
      injection ht with ht2
      have hperm := popMin_perm x t1 l1 h1
      have hl1 : l1 = [] := (popMin_none_iff l1).1 h2
      subst hl1
      rw [← ht2]
      constructor
      · intro h
        exact ⟨t1, hperm.mem_iff.mpr (List.mem_cons_self _ _), h⟩
      · rintro ⟨u, hu, hua⟩
        have hut : u = t1 := by simpa using hperm.mem_iff.mp hu
        rw [hut] at hua
        exact hua
  | case3 x t1 l1 h1 t2 l2 h2 ih =>
      intro t a ht
      rw [buildLoop_eq_step h1 h2] at ht
      have hpx := popMin_perm x t1 l1 h1
      have hpl1 := popMin_perm l1 t2 l2 h2
      have hmem1 : t1 ∈ x := hpx.mem_iff.mpr (List.mem_cons_self _ _)
      have hmeml1 : ∀ u ∈ l1, u ∈ x := fun u hu =>
        hpx.mem_iff.mpr (List.mem_cons_of_mem _ hu)
      have hmem2 : t2 ∈ x := hmeml1 t2 (hpl1.mem_iff.mpr (List.mem_cons_self _ _))
      have hmeml2 : ∀ u ∈ l2, u ∈ x := fun u hu =>
        hmeml1 u (hpl1.mem_iff.mpr (List.mem_cons_of_mem _ hu))
      rw [ih t a ht]
      constructor
      · rintro ⟨u, hu, hua⟩
        rcases List.mem_append.mp hu with hu1 | hu2
        · exact ⟨u, hmeml2 u hu1, hua⟩
        · have hu3 : u = Tree.Node (t1.freq + t2.freq) t1 t2 := by simpa using hu2
          subst hu3
          rcases Bool.or_eq_true_iff.mp (by simpa [Tree.hasToken] using hua) with h | h
          · exact ⟨t1, hmem1, h⟩
          · exact ⟨t2, hmem2, h⟩
      · rintro ⟨u, hu, hua⟩
        have hu2 := hpx.mem_iff.mp hu
        rcases List.mem_cons.mp hu2 with hu3 | hu4
        · rw [hu3] at hua
          refine ⟨Tree.Node (t1.freq + t2.freq) t1 t2, ?_, ?_⟩
          · simp
          · simp [Tree.hasToken, hua]
        · have hu5 := hpl1.mem_iff.mp hu4
          rcases List.mem_cons.mp hu5 with hu6 | hu7
          · rw [hu6] at hua
            refine ⟨Tree.Node (t1.freq + t2.freq) t1 t2, ?_, ?_⟩
            · simp
            · simp [Tree.hasToken, hua]
          · exact ⟨u, List.mem_append.mpr (Or.inl hu7), hua⟩

theorem buildLoop_isNodeB {T : Type} :
    ∀ (l : List (Tree T)), ∀ (t : Tree T),
      2 ≤ l.length → buildLoop l = some t → t.isNodeB = true := by
  intro l
  induction l using buildLoop.induct with
  | case1 x h1 =>
      intro t hlen ht
      rw [buildLoop_eq_none h1] at ht
      exact Option.noConfusion ht
  | case2 x t1 l1 h1 h2 =>
      intro t hlen ht
      have hperm := popMin_perm x t1 l1 h1
      have hl1 : l1 = [] := (popMin_none_iff l1).1 h2
      subst hl1
      have := hperm.length_eq
      simp at this
      omega
  | case3 x t1 l1 h1 t2 l2 h2 ih =>
      intro t hlen ht
      rw [buildLoop_eq_step h1 h2] at ht
      cases l2 with
      | nil =>
          simp only [List.nil_append] at ht
          rw [buildLoop_singleton] at ht
          injection ht with ht2
          rw [← ht2]
          rfl
      | cons u us =>
          exact ih t (by simp) ht

/-! ## Lemmas about the frequency counter -/

theorem bump_sum (fs : List (Char × Int)) (ch : Char) :
    sumCounts (bump fs ch) = sumCounts fs + 1 := by
  induction fs with
  | nil => simp [bump, sumCounts]
  | cons e rest ih =>
      obtain ⟨c, n⟩ := e
      by_cases hc : c = ch
      · simp [bump, hc, sumCounts]
        ring
      · simp [bump, hc, sumCounts] at ih ⊢
        omega

theorem foldl_bump_sum :
    ∀ (line : List Char) (fs : List (Char × Int)),
      sumCounts (line.foldl bump fs) = sumCounts fs + line.length := by
  intro line
  induction line with
  | nil => intro fs; simp
  | cons ch rest ih =>
      intro fs
      rw [List.foldl_cons, ih (bump fs ch), bump_sum]
      simp only [List.length_cons]
      push_cast
      ring

theorem learn_foldl_sum :
    ∀ (lines : List (List Char)) (fs : List (Char × Int)),
      sumCounts (lines.foldl (fun fs line => line.foldl bump fs) fs) =
        sumCounts fs + ((lines.map List.length).sum : Int) := by
  intro lines
  induction lines with
  | nil => intro fs; simp
  | cons line rest ih =>
      intro fs
      rw [List.foldl_cons, ih, foldl_bump_sum]
      simp only [List.map_cons, List.sum_cons]
      push_cast
      ring

theorem learn_char_frequencies_sum (lines : List (List Char)) :
    sumCounts (learn_char_frequencies lines) = ((lines.map List.length).sum : Int) := by
  rw [learn_char_frequencies, learn_foldl_sum]
  simp [sumCounts]

theorem mem_fst_bump_self :
    ∀ (fs : List (Char × Int)) (ch : Char), ∃ e ∈ bump fs ch, e.1 = ch := by
  intro fs
  induction fs with
  | nil => intro ch; exact ⟨(ch, 1), by simp [bump]⟩
  | cons e rest ih =>
      obtain ⟨c, n⟩ := e
      intro ch
      by_cases hc : c = ch
      · exact ⟨(c, n + 1), by simp [bump, hc], hc⟩
      · obtain ⟨e2, he2, ha⟩ := ih ch
        exact ⟨e2, by simp [bump, hc, he2], ha⟩

theorem mem_fst_bump_mono {fs : List (Char × Int)} {a : Char} (ch : Char)
    (h : ∃ e ∈ fs, e.1 = a) : ∃ e ∈ bump fs ch, e.1 = a := by
  induction fs with
  | nil => simp at h
  | cons e rest ih =>
      obtain ⟨c, n⟩ := e
      obtain ⟨e2, he2, ha⟩ := h
      by_cases hc : c = ch
      · rcases List.mem_cons.mp he2 with he3 | he4
        · refine ⟨(c, n + 1), by simp [bump, hc], ?_⟩
          rw [he3] at ha
          exact ha
        · exact ⟨e2, by simp [bump, hc, he4], ha⟩
      · rcases List.mem_cons.mp he2 with he3 | he4
        · exact ⟨e2, by simp [bump, hc, he3], ha⟩
        · obtain ⟨e3, he5, ha3⟩ := ih ⟨e2, he4, ha⟩
          exact ⟨e3, by simp [bump, hc, he5], ha3⟩

theorem foldl_bump_keep :
    ∀ (line : List Char) (fs : List (Char × Int)) (a : Char),
      (∃ e ∈ fs, e.1 = a) → ∃ e ∈ line.foldl bump fs, e.1 = a := by
  intro line
  induction line with
  | nil => intro fs a h; simpa using h
  | cons ch rest ih =>
      intro fs a h
      rw [List.foldl_cons]
      exact ih (bump fs ch) a (mem_fst_bump_mono ch h)

theorem foldl_bump_of_mem_line :
    ∀ (line : List Char) (fs : List (Char × Int)) (a : Char),
      a ∈ line → ∃ e ∈ line.foldl bump fs, e.1 = a := by
  intro line
  induction line with
  | nil => intro fs a h; simp at h
  | cons ch rest ih =>
      intro fs a h
      rw [List.foldl_cons]
      rcases List.mem_cons.mp h with h1 | h2
      · subst h1
        exact foldl_bump_keep rest (bump fs a) a (mem_fst_bump_self fs a)
      · exact ih (bump fs ch) a h2

theorem lines_foldl_keep :
    ∀ (lines : List (List Char)) (fs : List (Char × Int)) (a : Char),
      (∃ e ∈ fs, e.1 = a) →
      ∃ e ∈ lines.foldl (fun fs line => line.foldl bump fs) fs, e.1 = a := by
  intro lines
  induction lines with
  | nil => intro fs a h; simpa using h
  | cons line rest ih =>
      intro fs a h
      rw [List.foldl_cons]
      exact ih (line.foldl bump fs) a (foldl_bump_keep line fs a h)

theorem learn_char_frequencies_mem :
    ∀ (lines : List (List Char)) (line : List Char) (a : Char),
      line ∈ lines → a ∈ line →
      ∃ e ∈ learn_char_frequencies lines, e.1 = a := by
  have aux : ∀ (lines : List (List Char)) (fs : List (Char × Int)) (line : List Char)
      (a : Char), line ∈ lines → a ∈ line →
      ∃ e ∈ lines.foldl (fun fs line => line.foldl bump fs) fs, e.1 = a := by
    intro lines
    induction lines with
    | nil => intro fs line a h; simp at h
    | cons l0 rest ih =>
        intro fs line a hline ha
        rw [List.foldl_cons]
        rcases List.mem_cons.mp hline with h1 | h2
        · subst h1
          exact lines_foldl_keep rest (line.foldl bump fs) a
            (foldl_bump_of_mem_line line fs a ha)
        · exact ih (l0.foldl bump fs) line a h2 ha
  intro lines line a hline ha
  exact aux lines [] line a hline ha

/-- A token with a table entry is a token of the built tree. -/
theorem build_hasToken {T : Type} [DecidableEq T] (l : List (T × Int)) (t : Tree T)
    (a : T) (ht : build_huffman_tree l = some t) (h : ∃ e ∈ l, e.1 = a) :
    t.hasToken a = true := by
  obtain ⟨e, he, ha⟩ := h
  rw [build_huffman_tree] at ht
  rw [buildLoop_hasToken _ t a ht]
  refine ⟨Tree.Leaf e.2 e.1, List.mem_map.mpr ⟨e, he, rfl⟩, ?_⟩
  simp [Tree.hasToken, ha]

/-! ## Lemmas about the decode loop -/

theorem leafAt_ne_nil {T : Type} {t : Tree T} {p : List Bool} {a : T}
    (hn : t.isNodeB = true) (h : t.leafAt p a) : p ≠ [] := by
  cases t with
  | Leaf f x => simp [Tree.isNodeB] at hn
  | Node f l r => exact leafAt_node_ne_nil h

theorem decodeLoop_consume {T : Type} [DecidableEq T] {t : Tree T} {a : T} :
    ∀ (c2 c1 rest : List Bool) (toks : List T),
      t.leafAt (c1 ++ c2) a → c2 ≠ [] →
      decodeLoop (to_decoder t.to_encoder) (c2 ++ rest) c1 toks =
        decodeLoop (to_decoder t.to_encoder) rest [] (toks ++ [a]) := by
  intro c2
  induction c2 with
  | nil => intro c1 rest toks h hne; exact absurd rfl hne
  | cons b tl ih =>
      intro c1 rest toks h hne
      cases tl with
      | nil =>
          have hfull : t.leafAt (c1 ++ [b]) a := h
          have heq : alookup (c1 ++ [b]) (to_decoder t.to_encoder) = some a :=
            (alookup_decoder_iff _ _).mpr hfull
          simp only [List.cons_append, List.nil_append, decodeLoop, heq]
          simp
      | cons b2 tl2 =>
          have hseg : initSeg (c1 ++ [b]) (c1 ++ b :: b2 :: tl2) :=
            ⟨b2 :: tl2, by simp⟩
          have hne2 : c1 ++ [b] ≠ c1 ++ b :: b2 :: tl2 := by
            intro hcon
            have := congrArg List.length hcon
            simp at this
          have hnomatch : alookup (c1 ++ [b]) (to_decoder t.to_encoder) = none := by
            cases hm : alookup (c1 ++ [b]) (to_decoder t.to_encoder) with
            | none => rfl
            | some x =>
                have hx : t.leafAt (c1 ++ [b]) x := (alookup_decoder_iff _ _).mp hm
                exact absurd (leafAt_initSeg hx h hseg) hne2
          simp only [List.cons_append, decodeLoop, hnomatch]
          have h2 : t.leafAt ((c1 ++ [b]) ++ b2 :: tl2) a := by
            simpa [List.append_assoc] using h
          exact ih (c1 ++ [b]) rest toks h2 (by simp)

theorem decodeLoop_encodeLine {T : Type} [DecidableEq T] {t : Tree T}
    (hn : t.isNodeB = true) :
    ∀ (ts : List T) (bits extra : List Bool) (toks : List T),
      encodeLine t.to_encoder ts = some bits →
      decodeLoop (to_decoder t.to_encoder) (bits ++ extra) [] toks =
        decodeLoop (to_decoder t.to_encoder) extra [] (toks ++ ts) := by
  intro ts
  induction ts with
  | nil =>
      intro bits extra toks he
      simp only [encodeLine] at he
      injection he with he2
      rw [← he2]
      simp
  | cons ch rest ih =>
      intro bits extra toks he
      simp only [encodeLine] at he
      cases hc : alookup ch t.to_encoder with
      | none =>
          rw [hc] at he
          simp at he
      | some c =>
          cases hr : encodeLine t.to_encoder rest with
          | none =>
              rw [hc, hr] at he
              simp at he
          | some bs =>
              rw [hc, hr] at he
              simp only [Option.some.injEq] at he
              rw [← he]
              have hleaf : t.leafAt c ch := alookup_to_encoder_sound hc
              have hcne : c ≠ [] := leafAt_ne_nil hn hleaf
              rw [List.append_assoc]
              rw [decodeLoop_consume c [] (bs ++ extra) toks (by simpa using hleaf) hcne]
              rw [ih bs extra (toks ++ [ch]) hr]
              simp

theorem decode_line_encodeLine {T : Type} [DecidableEq T] {t : Tree T}
    (hn : t.isNodeB = true) (ts : List T) (bits : List Bool)
    (he : encodeLine t.to_encoder ts = some bits) :
    decode_line (to_decoder t.to_encoder) bits = ts := by
  rw [decode_line]
  have h := decodeLoop_encodeLine hn ts bits [] [] he
  simpa [decodeLoop] using h

theorem decodeLoop_no_match {T : Type} [DecidableEq T] {t : Tree T} {q : List Bool}
    {tok : T} (hq : t.leafAt q tok) :
    ∀ (c2 c1 : List Bool) (toks : List T),
      initSeg (c1 ++ c2) q → c1 ++ c2 ≠ q →
      decodeLoop (to_decoder t.to_encoder) c2 c1 toks = toks := by
  intro c2
  induction c2 with
  | nil => intro c1 toks _ _; rfl
  | cons b tl ih =>
      intro c1 toks hseg hne
      have hseg2 : initSeg (c1 ++ [b]) q := by
        obtain ⟨r, hr⟩ := hseg
        refine ⟨tl ++ r, ?_⟩
        rw [← hr]
        simp
      have hne2 : c1 ++ [b] ≠ q := by
        intro hcon
        obtain ⟨r, hr⟩ := hseg
        have h1 := congrArg List.length hr
        have h2 := congrArg List.length hcon
        simp at h1 h2
        have htl : tl = [] := List.length_eq_zero.mp (by omega)
        have hrr : r = [] := List.length_eq_zero.mp (by omega)
        subst htl
        subst hrr
        simp at hr
        exact hne (by simpa using hr)
      have hnomatch : alookup (c1 ++ [b]) (to_decoder t.to_encoder) = none := by
        cases hm : alookup (c1 ++ [b]) (to_decoder t.to_encoder) with
        | none => rfl
        | some x =>
            have hx : t.leafAt (c1 ++ [b]) x := (alookup_decoder_iff _ _).mp hm
            exact absurd (leafAt_initSeg hx hq hseg2) hne2
      simp only [decodeLoop, hnomatch]
      refine ih (c1 ++ [b]) toks ?_ ?_
      · simpa [List.append_assoc] using hseg
      · simpa [List.append_assoc] using hne

/-! ## Encoding success and the round trip -/

theorem encodeLine_isSome {T : Type} [DecidableEq T] (enc : List (T × List Bool)) :
    ∀ (line : List T), (∀ ch ∈ line, (alookup ch enc).isSome = true) →
      ∃ bs, encodeLine enc line = some bs := by
  intro line
  induction line with
  | nil => intro _; exact ⟨[], rfl⟩
  | cons ch rest ih =>
      intro h
      obtain ⟨c, hc⟩ := Option.isSome_iff_exists.mp (h ch (List.mem_cons_self _ _))
      obtain ⟨bs, hbs⟩ := ih (fun x hx => h x (List.mem_cons_of_mem _ hx))
      exact ⟨c ++ bs, by simp [encodeLine, hc, hbs]⟩

theorem encodeAllLines_isSome {T : Type} [DecidableEq T] (enc : List (T × List Bool)) :
    ∀ (lines : List (List T)),
      (∀ line ∈ lines, ∃ bs, encodeLine enc line = some bs) →
      ∃ data, encodeAllLines enc lines = some data := by
  intro lines
  induction lines with
  | nil => intro _; exact ⟨[], rfl⟩
  | cons line rest ih =>
      intro h
      obtain ⟨bs, hbs⟩ := h line (List.mem_cons_self _ _)
      obtain ⟨ds, hds⟩ := ih (fun x hx => h x (List.mem_cons_of_mem _ hx))
      exact ⟨bs :: ds, by simp [encodeAllLines, hbs, hds]⟩

theorem map_decode_encodeAllLines {T : Type} [DecidableEq T] {t : Tree T}
    (hn : t.isNodeB = true) :
    ∀ (lines : List (List T)) (data : List (List Bool)),
      encodeAllLines t.to_encoder lines = some data →
      data.map (fun bits => decode_line (to_decoder t.to_encoder) bits) = lines := by
  intro lines
  induction lines with
  | nil =>
      intro data h
      simp only [encodeAllLines] at h
      injection h with h2
      rw [← h2]
      rfl
  | cons line rest ih =>
      intro data h
      simp only [encodeAllLines] at h
      cases hl : encodeLine t.to_encoder line with
      | none =>
          rw [hl] at h
          simp at h
      | some bs =>
          cases hr : encodeAllLines t.to_encoder rest with
          | none =>
              rw [hl, hr] at h
              simp at h
          | some ds =>
              rw [hl, hr] at h
              simp only [Option.some.injEq] at h
              rw [← h]
              simp only [List.map_cons]
              rw [ih ds hr, decode_line_encodeLine hn line bs hl]

theorem encodeTokens_append_none {T : Type} [DecidableEq T]
    (enc : List (T × List Bool)) (c : T) (h : alookup c enc = none) :
    ∀ (pre post : List T), encodeTokens enc (pre ++ c :: post) = none := by
  intro pre
  induction pre with
  | nil =>
      intro post
      simp only [List.nil_append, encodeTokens, h]
  | cons x rest ih =>
      intro post
      simp only [List.cons_append, encodeTokens, List.append_eq]
      rw [ih post]
      cases alookup x enc <;> rfl

/-! ## Claim theorems -/

/-- C1 (amended): the claim as stated fails on single-character corpora,
where the sole symbol gets the empty codeword (see `C1_counterexample`).
For every list of lines whose text contains at least two distinct
characters (equivalently, whose learned frequency table has at least two
entries — the table's keys are exactly the characters occurring in the
lines), decompressing the output of `compress_as_chars` with the
character-concatenating detokenizer returns exactly the original lines. -/
theorem C1_round_trip (lines : List (List Char))
    (h : 2 ≤ (learn_char_frequencies lines).length) :
    (compress_as_chars lines).map decompressChars = some lines := by
  have hb : (build_huffman_tree (learn_char_frequencies lines)).isSome := by
    rw [build_huffman_tree]
    apply buildLoop_isSome
    intro hc
    rw [List.map_eq_nil_iff.mp hc] at h
    simp at h
  obtain ⟨t, ht⟩ := Option.isSome_iff_exists.mp hb
  have hnode : t.isNodeB = true := by
    rw [build_huffman_tree] at ht
    apply buildLoop_isNodeB _ t _ ht
    simpa using h
  have hsome : ∀ line ∈ lines, ∀ ch ∈ line, (alookup ch t.to_encoder).isSome = true := by
    intro line hl ch hc
    obtain ⟨p, hp⟩ := hasToken_iff_leafAt.mp
      (build_hasToken _ t ch ht (learn_char_frequencies_mem lines line ch hl hc))
    exact alookup_to_encoder_isSome hp
  obtain ⟨data, hdata⟩ := encodeAllLines_isSome t.to_encoder lines
    (fun line hl => encodeLine_isSome t.to_encoder line (hsome line hl))
  have hcomp : compress_as_chars lines = some (t.to_encoder, data) := by
    simp only [compress_as_chars, ht, hdata]
  rw [hcomp]
  simp only [Option.map_some', decompressChars, decompress, Option.some.injEq]
  exact map_decode_encodeAllLines hnode lines data hdata

/-- Witness for C1: the two-line corpus `["ab"]` has two distinct
characters and round-trips exactly. -/
theorem C1_round_trip_witness :
    2 ≤ (learn_char_frequencies [['a', 'b']]).length ∧
    (compress_as_chars [['a', 'b']]).map decompressChars = some [['a', 'b']] :=
  ⟨by decide, C1_round_trip [['a', 'b']] (by decide)⟩

/-- Counterexample to C1 as stated: for the non-empty line list `["a"]`
the sole character gets the empty codeword, the encoded line is empty, and
decompressing returns `[""]`, not `["a"]`. -/
theorem C1_counterexample :
    (compress_as_chars [['a']]).map decompressChars = some [([] : List Char)] ∧
    some [([] : List Char)] ≠ some [['a']] := by
  constructor
  · simp [compress_as_chars, learn_char_frequencies, bump, build_huffman_tree,
      buildLoop.eq_def, popMin, Tree.to_encoder, encLoop, encodeAllLines, encodeLine,
      alookup, decompressChars, decompress, decode_line, decodeLoop, to_decoder]
  · decide

/-- C2 (amended): when the bits of a line run out with a non-empty
candidate that matches no decoder entry, `decompress` silently discards
the fragment and returns the tokens decoded so far — there is no
`CorruptDataError` (the `None => ()` arm of the match ignores the miss and
the loop ends by returning `tokens_to_line(tokens)`).  Concretely:
truncating the last bit of an encoded line whose final token has a
codeword of at least two bits yields the line with that final token
silently dropped. -/
theorem C2_truncation_drops (t : Tree Char) (ts : List Char) (tok : Char)
    (bits ctok : List Bool)
    (he : encodeLine t.to_encoder ts = some bits)
    (hc : alookup tok t.to_encoder = some ctok)
    (hlen : 2 ≤ ctok.length) :
    decode_line (to_decoder t.to_encoder) (bits ++ ctok.dropLast) = ts := by
  have hleaf : t.leafAt ctok tok := alookup_to_encoder_sound hc
  have hctne : ctok ≠ [] := by
    intro hcon
    rw [hcon] at hlen
    simp at hlen
  have hn : t.isNodeB = true := by
    cases t with
    | Leaf f x =>
        cases ctok with
        | nil => simp at hlen
        | cons b tl => simp [Tree.leafAt] at hleaf
    | Node f l r => rfl
  rw [decode_line, decodeLoop_encodeLine hn ts bits ctok.dropLast [] he]
  apply decodeLoop_no_match hleaf ctok.dropLast [] ts
  · simp only [List.nil_append]
    exact ⟨[ctok.getLast hctne], List.dropLast_append_getLast hctne⟩
  · simp only [List.nil_append]
    intro hcon
    have := congrArg List.length hcon
    rw [List.length_dropLast] at this
    omega

/-- Witness for C2: with the golden four-symbol tree, the encoding of
"ab" is `[0,1,1]`; truncated to `[0,1]` it decodes to "a" with the
trailing bit silently dropped. -/
theorem C2_truncation_witness :
    decode_line
      (to_decoder (Tree.Node 100 (Tree.Leaf 40 'a')
        (Tree.Node 60 (Tree.Node 25 (Tree.Leaf 5 'd') (Tree.Leaf 20 'c'))
          (Tree.Leaf 35 'b'))).to_encoder)
      ([false] ++ [true, true].dropLast) = ['a'] :=
  C2_truncation_drops _ ['a'] 'b' [false] [true, true]
    (by simp [Tree.to_encoder, encLoop, encodeLine, alookup])
    (by simp [Tree.to_encoder, encLoop, alookup])
    (by decide)

/-- Counterexample to C2 as stated: decoding the truncated payload
`[0,1]` (the encoding `[0,1,1]` of "ab" missing its last bit) under the
tree built from `{a:40,b:35,c:20,d:5}` returns the line "a" — a
successful value with the non-matching trailing candidate `[1]` silently
dropped — rather than failing with any error. -/
theorem C2_counterexample :
    (build_huffman_tree [('a', (40 : Int)), ('b', 35), ('c', 20), ('d', 5)]).map
        (fun t => decode_line (to_decoder t.to_encoder) [false, true]) = some ['a'] ∧
    (build_huffman_tree [('a', (40 : Int)), ('b', 35), ('c', 20), ('d', 5)]).map
        (fun t => alookup [true] (to_decoder t.to_encoder)) = some none := by
  constructor
  · simp [build_huffman_tree, buildLoop.eq_def, popMin, Tree.to_encoder, encLoop,
      decode_line, decodeLoop, to_decoder, alookup, Tree.freq]
  · simp [build_huffman_tree, buildLoop.eq_def, popMin, Tree.to_encoder, encLoop,
      to_decoder, alookup, Tree.freq]

/-- C3: evaluation of the code at the claimed inputs.  For the
single-symbol table `{x:5}` the built tree is a single leaf (as the claim
says), but the derived encoder assigns the EMPTY codeword — not a 1-bit
codeword — so compressing `["xxxx"]` and decompressing yields `[""]`:
the round trip fails.  This contradicts the specified 1-bit convention. -/
theorem C3_single_symbol_eval :
    build_huffman_tree [('x', (5 : Int))] = some (Tree.Leaf 5 'x') ∧
    (build_huffman_tree [('x', (5 : Int))]).map (fun t => alookup 'x' t.to_encoder) =
      some (some []) ∧
    (compress_as_chars [['x', 'x', 'x', 'x']]).map decompressChars = some [([] : List Char)] := by
  refine ⟨?_, ?_, ?_⟩
  · simp [build_huffman_tree, buildLoop.eq_def, popMin]
  · simp [build_huffman_tree, buildLoop.eq_def, popMin, Tree.to_encoder, encLoop, alookup]
  · simp [compress_as_chars, learn_char_frequencies, bump, build_huffman_tree,
      buildLoop.eq_def, popMin, Tree.to_encoder, encLoop, encodeAllLines, encodeLine,
      alookup, decompressChars, decompress, decode_line, decodeLoop, to_decoder]

/-- C4 (amended): on the empty frequency table `build_huffman_tree` hits
`heap.pop().unwrap()` on an empty heap and panics — modelled by `none` —
rather than returning any typed error value; on every non-empty table it
succeeds and returns a tree. -/
theorem C4_build_behavior :
    build_huffman_tree ([] : List (Char × Int)) = none ∧
    ∀ (l : List (Char × Int)), l ≠ [] → (build_huffman_tree l).isSome = true := by
  constructor
  · rw [build_huffman_tree]
    exact buildLoop_eq_none rfl
  · intro l hl
    rw [build_huffman_tree]
    apply buildLoop_isSome
    intro hc
    exact hl (List.map_eq_nil_iff.mp hc)

/-- Witness for C4: the one-entry table builds successfully. -/
theorem C4_build_witness : (build_huffman_tree [('a', (1 : Int))]).isSome = true :=
  C4_build_behavior.2 [('a', 1)] (by decide)

/-- Counterexample to C4 as stated: on the empty table the code does not
return an `EmptyAlphabetError` value — it panics (`unwrap` on `None`,
modelled by `none`); the function's return type `Tree<T>` has no error
channel at all. -/
theorem C4_counterexample : build_huffman_tree ([] : List (Char × Int)) = none := by
  rw [build_huffman_tree]
  exact buildLoop_eq_none rfl

/-- C5 (amended): tree construction is NOT independent of the `HashMap`
iteration order.  `impl Ord for Tree` compares only the frequencies —
`cmpFreq` returns `Ordering.eq` on distinct equal-frequency leaves, so
there is no secondary tie-break key — and two insertion orders of the
same table `{a:1,b:1}` assign 'a' the codewords `[0]` and `[1]`
respectively. -/
theorem C5_no_tie_break :
    Tree.cmpFreq (Tree.Leaf 1 'a') (Tree.Leaf 1 'b') = Ordering.eq ∧
    (build_huffman_tree [('a', (1 : Int)), ('b', 1)]).map (fun t => alookup 'a' t.to_encoder) =
      some (some [false]) ∧
    (build_huffman_tree [('b', (1 : Int)), ('a', 1)]).map (fun t => alookup 'a' t.to_encoder) =
      some (some [true]) := by
  refine ⟨by decide, ?_, ?_⟩
  · simp [build_huffman_tree, buildLoop.eq_def, popMin, Tree.to_encoder, encLoop,
      alookup, Tree.freq]
  · simp [build_huffman_tree, buildLoop.eq_def, popMin, Tree.to_encoder, encLoop,
      alookup, Tree.freq]

/-- Counterexample to C5 as stated: the lists `[(a,1),(b,1)]` and
`[(b,1),(a,1)]` are permutations of each other — the same frequency
table, iterated in two different orders — yet the two runs assign 'a'
different codewords, so the encoder tables differ. -/
theorem C5_counterexample :
    ([('a', (1 : Int)), ('b', 1)]).Perm [('b', 1), ('a', 1)] ∧
    (build_huffman_tree [('a', (1 : Int)), ('b', 1)]).map (fun t => alookup 'a' t.to_encoder) ≠
      (build_huffman_tree [('b', (1 : Int)), ('a', 1)]).map (fun t => alookup 'a' t.to_encoder) := by
  constructor
  · decide
  · have h1 : (build_huffman_tree [('a', (1 : Int)), ('b', 1)]).map
        (fun t => alookup 'a' t.to_encoder) = some (some [false]) := by
      simp [build_huffman_tree, buildLoop.eq_def, popMin, Tree.to_encoder, encLoop,
        alookup, Tree.freq]
    have h2 : (build_huffman_tree [('b', (1 : Int)), ('a', 1)]).map
        (fun t => alookup 'a' t.to_encoder) = some (some [true]) := by
      simp [build_huffman_tree, buildLoop.eq_def, popMin, Tree.to_encoder, encLoop,
        alookup, Tree.freq]
    rw [h1, h2]
    decide

/-- C6 (amended): when some token of the input has no encoder entry,
`Tree::encode` panics at `encoder.get(item).unwrap()` — modelled by
`none` — rather than returning a typed `UnknownSymbolError` value (the
function's return type `Vec<BitVec>` has no error channel). -/
theorem C6_unknown_symbol (t : Tree Char) (pre post : List Char) (c : Char)
    (h : alookup c t.to_encoder = none) :
    Tree.encode t (pre ++ c :: post) = none := by
  rw [Tree.encode]
  exact encodeTokens_append_none t.to_encoder c h pre post

/-- Witness for C6: encoding `['c']` with a tree over `{a,b}` panics. -/
theorem C6_unknown_symbol_witness :
    Tree.encode (Tree.Node 2 (Tree.Leaf 1 'a') (Tree.Leaf 1 'b')) ([] ++ 'c' :: []) = none :=
  C6_unknown_symbol (Tree.Node 2 (Tree.Leaf 1 'a') (Tree.Leaf 1 'b')) [] [] 'c'
    (by simp [Tree.to_encoder, encLoop, alookup])

/-- Counterexample to C6 as stated: encoding a symbol absent from the
table does not produce an `UnknownSymbolError` value naming the symbol
and line — the code panics (`unwrap` on `None`, modelled by `none`). -/
theorem C6_counterexample :
    Tree.encode (Tree.Node 2 (Tree.Leaf 1 'a') (Tree.Leaf 1 'b')) ['c'] = none := by
  simp [Tree.encode, encodeTokens, Tree.to_encoder, encLoop, alookup]

/-- C7: the encoder derived from a tree built from a non-empty frequency
table is prefix-free — for distinct symbols `a` and `b` with codewords
`pa` and `pb`, `pa` is not an initial segment of `pb`.  (Distinct tokens
in the encoder come from distinct leaves, and the path to one leaf can
never be a prefix of the path to another.) -/
theorem C7_prefixFree (l : List (Char × Int)) (t : Tree Char)
    (hne : l ≠ []) (ht : build_huffman_tree l = some t)
    (a b : Char) (pa pb : List Bool) (hab : a ≠ b)
    (ha : alookup a t.to_encoder = some pa) (hb : alookup b t.to_encoder = some pb) :
    ¬ initSeg pa pb := by
  intro hseg
  have hla := alookup_to_encoder_sound ha
  have hlb := alookup_to_encoder_sound hb
  have hpq := leafAt_initSeg hla hlb hseg
  subst hpq
  exact hab (leafAt_token_eq hla hlb)

/-- Witness for C7: in the tree over `{a:2,b:3}`, the codeword `[0]` of
'a' is not a prefix of the codeword `[1]` of 'b'. -/
theorem C7_prefixFree_witness : ¬ initSeg [false] [true] :=
  C7_prefixFree [('a', 2), ('b', 3)] (Tree.Node 5 (Tree.Leaf 2 'a') (Tree.Leaf 3 'b'))
    (by decide)
    (by simp [build_huffman_tree, buildLoop.eq_def, popMin, Tree.freq])
    'a' 'b' [false] [true] (by decide)
    (by simp [Tree.to_encoder, encLoop, alookup])
    (by simp [Tree.to_encoder, encLoop, alookup])

/-- C8: in every tree built by `build_huffman_tree`, each internal node's
frequency is the sum of its children's frequencies (`freqOkB`), and the
root frequency equals the sum of the frequency table's counts; moreover
the counts summed over `learn_char_frequencies` equal the total number of
characters in the corpus — so the root frequency equals the total token
count observed by the frequency counter. -/
theorem C8_freq_conservation :
    (∀ (l : List (Char × Int)) (t : Tree Char),
        build_huffman_tree l = some t →
        t.freqOkB = true ∧ t.freq = sumCounts l) ∧
    (∀ lines : List (List Char),
        sumCounts (learn_char_frequencies lines) = ((lines.map List.length).sum : Int)) := by
  constructor
  · intro l t ht
    rw [build_huffman_tree] at ht
    have hok : ∀ u ∈ l.map (fun p => Tree.Leaf p.2 p.1), u.freqOkB = true := by
      intro u hu
      obtain ⟨e, he, hu2⟩ := List.mem_map.mp hu
      rw [← hu2]
      rfl
    obtain ⟨h1, h2⟩ := buildLoop_freq _ t hok ht
    refine ⟨h1, ?_⟩
    have hfn : (Tree.freq ∘ fun p : Char × Int => Tree.Leaf p.2 p.1) =
        fun p : Char × Int => p.2 := by
      funext p
      rfl
    rw [h2, List.map_map, hfn]
    rfl
  · exact learn_char_frequencies_sum

/-- Witness for C8: the table `{a:2,b:3}` builds the tree
`Node 5 (Leaf 2 a) (Leaf 3 b)`, whose root frequency 5 is the sum of the
counts; the corpus `["ab","b"]` has 3 characters in total. -/
theorem C8_freq_conservation_witness :
    ((Tree.Node 5 (Tree.Leaf 2 'a') (Tree.Leaf 3 'b')).freqOkB = true ∧
      (Tree.Node 5 (Tree.Leaf 2 'a') (Tree.Leaf 3 'b')).freq =
        sumCounts [('a', 2), ('b', 3)]) ∧
    sumCounts (learn_char_frequencies [['a', 'b'], ['b']]) =
      (([['a', 'b'], ['b']].map List.length).sum : Int) :=
  ⟨C8_freq_conservation.1 [('a', 2), ('b', 3)] _
      (by simp [build_huffman_tree, buildLoop.eq_def, popMin, Tree.freq]),
    C8_freq_conservation.2 [['a', 'b'], ['b']]⟩

/-- C9: for the frequency table `{a:40,b:35,c:20,d:5}`, the derived
encoder assigns 'a' the 1-bit codeword `[0]`, 'b' the 2-bit codeword
`[1,1]`, 'c' the 3-bit codeword `[1,0,1]` and 'd' the 3-bit codeword
`[1,0,0]` — codeword lengths 1, 2, 3 and 3, the standard optimal Huffman
assignment, exactly as the repository's own `huffman_tree_test` checks. -/
theorem C9_golden_lengths :
    (build_huffman_tree [('a', (40 : Int)), ('b', 35), ('c', 20), ('d', 5)]).map
        (fun t => (alookup 'a' t.to_encoder, alookup 'b' t.to_encoder,
                   alookup 'c' t.to_encoder, alookup 'd' t.to_encoder)) =
      some (some [false], some [true, true], some [true, false, true],
        some [true, false, false]) ∧
    (build_huffman_tree [('a', (40 : Int)), ('b', 35), ('c', 20), ('d', 5)]).map
        (fun t => ((alookup 'a' t.to_encoder).map List.length,
                   (alookup 'b' t.to_encoder).map List.length,
                   (alookup 'c' t.to_encoder).map List.length,
                   (alookup 'd' t.to_encoder).map List.length)) =
      some (some 1, some 2, some 3, some 3) := by
  constructor
  · simp [build_huffman_tree, buildLoop.eq_def, popMin, Tree.to_encoder, encLoop,
      alookup, Tree.freq]
  · simp [build_huffman_tree, buildLoop.eq_def, popMin, Tree.to_encoder, encLoop,
      alookup, Tree.freq]

/-- C10: the `encoder.get(&ch).unwrap()` in `compress_as_chars` can never
panic — every character occurring in the lines is a key of the frequency
table learned from those same lines, every table key is a token of the
built tree, and every tree token has an encoder entry. -/
theorem C10_lookup_total (lines : List (List Char)) (t : Tree Char)
    (ht : build_huffman_tree (learn_char_frequencies lines) = some t)
    (line : List Char) (hl : line ∈ lines) (ch : Char) (hc : ch ∈ line) :
    (alookup ch t.to_encoder).isSome = true := by
  obtain ⟨p, hp⟩ := hasToken_iff_leafAt.mp
    (build_hasToken _ t ch ht (learn_char_frequencies_mem lines line ch hl hc))
  exact alookup_to_encoder_isSome hp

/-- Witness for C10: the character 'a' of the corpus `["ab"]` has an
encoder entry in the tree built from that corpus's own frequencies. -/
theorem C10_lookup_total_witness :
    (alookup 'a' (Tree.Node 2 (Tree.Leaf 1 'a') (Tree.Leaf 1 'b')).to_encoder).isSome = true :=
  C10_lookup_total [['a', 'b']] (Tree.Node 2 (Tree.Leaf 1 'a') (Tree.Leaf 1 'b'))
    (by simp [learn_char_frequencies, bump, build_huffman_tree, buildLoop.eq_def,
      popMin, Tree.freq])
    ['a', 'b'] (by decide) 'a' (by decide)

end HuffmanRs
